import Mathlib

/-!
Verification of the BRAIN repository's activation engine and memory subsystem
(`src/nce/engine.py`, `src/nce/brain.py`, `src/nce/memory.py`).

Python floats are modelled as rationals (`ℚ`): all arithmetic the claims touch
is exact at the scales involved, so the rational model is faithful. Python's
insertion-ordered dictionaries of nodes are modelled as lists in insertion
order with lookup by first matching id, and `list.sort` (a stable sort) is
modelled by `List.mergeSort`, which is stable.
-/

namespace NCE

/-- `brain.py` `Node`: id, type, label, base activation, current activation. -/
structure Node where
  id : String
  type : String
  label : String
  base_activation : ℚ
  activation : ℚ
deriving DecidableEq, Repr

/-- `brain.py` `Edge`: a directed, weighted edge with a type tag. -/
structure Edge where
  source : String
  target : String
  weight : ℚ
  edge_type : String
deriving DecidableEq, Repr

/-- `brain.py` `ResponseRule`. -/
structure ResponseRule where
  id : String
  trigger_concepts : List String
  intent : String
  priority : Int
deriving DecidableEq, Repr

/-- `brain.py` `BrainGraph`: nodes in dict insertion order, the edge list, and
the response rules in insertion order. The adjacency index is always consistent
with the edge list (each edge appears once under its source), so
`get_edges_from` is recovered below by filtering the edge list. -/
structure BrainGraph where
  nodes : List Node
  edges : List Edge
  responses : List ResponseRule
deriving DecidableEq, Repr

/-- `BrainGraph.get_node`: dict lookup by id (first match in insertion order). -/
def getNode (g : BrainGraph) (cid : String) : Option Node :=
  g.nodes.find? (fun n => n.id == cid)

/-- `BrainGraph.get_edges_from`: the adjacency bucket of a source id, which by
construction equals the edges with that source, in insertion order. -/
def getEdgesFrom (g : BrainGraph) (nid : String) : List Edge :=
  g.edges.filter (fun e => e.source == nid)

/-- `engine.py` `ACTIVATION_THRESHOLD = 0.05`. -/
def activationThreshold : ℚ := 1/20

/-- The clamp `max(0.0, min(1.0, v))` applied when a delta lands on a target. -/
def clamp01 (x : ℚ) : ℚ := max 0 (min 1 x)

/-- One edge's delta in `spread_activation`: excitatory edges use the signed
stored weight scaled by the decay factor; all other edge types take the
inhibitory branch, `-(activation * |weight| * 0.5)`, not scaled by decay.
The result is then multiplied by the combined modulator factor. -/
def edgeDelta (act : ℚ) (e : Edge) (decayFactor modFac : ℚ) : ℚ :=
  (if e.edge_type = "excitatory" then act * e.weight * decayFactor
   else -(act * |e.weight| * (1/2))) * modFac

/-- The (contributing node, edge) pairs that put a delta into target `t` during
one step: nodes strictly above the threshold emit along each of their outgoing
edges; the engine skips edges whose target id resolves to no node, and only
ids of existing nodes are updated, so the dangling check is reflected by only
ever reading `firesInto` at ids of nodes of the graph. -/
def firesInto (g : BrainGraph) (t : String) : List (Node × Edge) :=
  (g.nodes.filter (fun n => decide (activationThreshold < n.activation))).flatMap
    (fun n => ((getEdgesFrom g n.id).filter (fun e => e.target == t)).map (fun e => (n, e)))

/-- The accumulated delta the step's update map holds for target `t`. -/
def stepDelta (g : BrainGraph) (decayFactor modFac : ℚ) (t : String) : ℚ :=
  ((firesInto g t).map (fun p => edgeDelta p.1.activation p.2 decayFactor modFac)).sum

/-- Whether the update map has an entry for `t` (an entry is created as soon as
any delta, even zero, is accumulated into `t`). -/
def hasUpdate (g : BrainGraph) (t : String) : Bool :=
  !(firesInto g t).isEmpty

/-- One spreading step: deltas are computed from the state at the start of the
step (the per-step update map) and applied afterwards, each updated target
clamped to `[0, 1]`. Nodes with no entry in the update map keep their
activation unchanged. -/
def spreadStep (g : BrainGraph) (decayFactor modFac : ℚ) : BrainGraph :=
  { g with
    nodes := g.nodes.map (fun m =>
      if hasUpdate g m.id then
        { m with activation := clamp01 (m.activation + stepDelta g decayFactor modFac m.id) }
      else m) }

/-- `spread_activation`: step `s` (0-based) uses `decay_factor = decay ^ s`;
the combined modulator factor is computed once for the whole run. -/
def spreadActivation (g : BrainGraph) (steps : ℕ) (decay modFac : ℚ) : BrainGraph :=
  (List.range steps).foldl (fun g0 s => spreadStep g0 (decay ^ s) modFac) g

/-- The combined modulator multiplier: the product of all modulator values. -/
def modFactor (mods : List (String × ℚ)) : ℚ :=
  (mods.map Prod.snd).foldl (· * ·) 1

/-- The engine's default modulator table (`curiosity` and `urgency`, both 1.0). -/
def defaultModulators : List (String × ℚ) := [("curiosity", 1), ("urgency", 1)]

/-- `inject_activation`, seeding part: each recognized concept id that resolves
to a node forces that node's activation to 1. -/
def injectActivation (g : BrainGraph) (cids : List String) : BrainGraph :=
  { g with
    nodes := g.nodes.map (fun n =>
      if cids.contains n.id then { n with activation := 1 } else n) }

/-- `inject_activation`, priming part: every primed concept resolving to a node
whose activation is below 1 gains 0.3, capped at 1. -/
def applyPriming (g : BrainGraph) (primed : List String) : BrainGraph :=
  { g with
    nodes := g.nodes.map (fun n =>
      if primed.contains n.id ∧ n.activation < 1
      then { n with activation := min 1 (n.activation + 3/10) } else n) }

/-- The C1 scenario graph before seeding: `hello` and `greeting`, both with
base activation 0, and one excitatory edge `hello → greeting` of weight 0.9. -/
def helloGraph0 : BrainGraph :=
  { nodes := [⟨"hello", "concept", "hello", 0, 0⟩, ⟨"greeting", "concept", "greeting", 0, 0⟩]
    edges := [⟨"hello", "greeting", 9/10, "excitatory"⟩]
    responses := [] }

/-- The C1 scenario graph with `hello` seeded to 1. -/
def helloGraph : BrainGraph := injectActivation helloGraph0 ["hello"]

/-- `utils.py` `ThoughtTrace` (the fields response selection touches). -/
structure ThoughtTrace where
  node_activations : List (ℕ × String × ℚ) := []
  edge_traversals : List (ℕ × String × String × ℚ) := []
  final_concepts : List String := []
  response_intent : String := ""
deriving DecidableEq, Repr

/-- `select_response` scoring: the sum of the activations of the rule's trigger
concepts (an unresolved id contributes 0) plus `priority * 0.01`. -/
def scoreRule (g : BrainGraph) (r : ResponseRule) : ℚ :=
  (r.trigger_concepts.map (fun c =>
    match getNode g c with
    | some n => n.activation
    | none => 0)).sum + (r.priority : ℚ) * (1/100)

/-- The scan over the scores of the rules in insertion order, tracking the
index of the best rule so far and the best score, starting from no rule and
score `-1.0`; a rule replaces the best only on strict improvement
(`score > best_score`). -/
def scanBestAux : List ℚ → ℕ → Option ℕ → ℚ → Option ℕ × ℚ
  | [], _, best, bestScore => (best, bestScore)
  | s :: rest, i, best, bestScore =>
    if bestScore < s then scanBestAux rest (i + 1) (some i) s
    else scanBestAux rest (i + 1) best bestScore

/-- The full scan of `select_response` over a list of scores. -/
def scanBest (scores : List ℚ) : Option ℕ × ℚ := scanBestAux scores 0 none (-1)

/-- The fixed fallback rule substituted when nothing fires. -/
def fallbackRule : ResponseRule :=
  { id := "r_fallback", trigger_concepts := [], intent := "unknown", priority := 0 }

/-- `select_response`: scan the rules in insertion order; substitute the
fallback when no rule was ever picked or the best score is below the
activation threshold. -/
def selectResponse (g : BrainGraph) : ResponseRule :=
  let scored := scanBest (g.responses.map (scoreRule g))
  match scored.1 with
  | none => fallbackRule
  | some i =>
    if scored.2 < activationThreshold then fallbackRule
    else g.responses.getD i fallbackRule

/-- `select_response` including the trace write: the chosen rule's intent is
recorded on the trace before the rule is returned. -/
def selectResponseTrace (g : BrainGraph) (t : ThoughtTrace) : ResponseRule × ThoughtTrace :=
  let r := selectResponse g
  (r, { t with response_intent := r.intent })

/-- The comparator realising `active.sort(reverse=True)` on `(activation, id)`
pairs in `plan_response`: descending lexicographic order (Python's stable sort,
reversed, keeps `p` before `q` exactly when `p ≥ q` in tuple order). -/
def keyLE (p q : ℚ × String) : Bool :=
  decide (q.1 < p.1 ∨ (p.1 = q.1 ∧ q.2 ≤ p.2))

/-- `plan_response`: the `(activation, id)` pairs of the nodes strictly above
the threshold, sorted with `sort(reverse=True)`. -/
def sortedActive (g : BrainGraph) : List (ℚ × String) :=
  ((g.nodes.filter (fun n => decide (activationThreshold < n.activation))).map
    (fun n => (n.activation, n.id))).mergeSort keyLE

/-- The active-concept id list handed to the realizer. -/
def activeConcepts (g : BrainGraph) : List String :=
  (sortedActive g).map Prod.snd

/-- Modelled from the spec claim's words, for comparison with `activeConcepts`:
"ordered by descending activation with ties among equal activations broken by
concept id", reading the tie-break as the usual ascending id order. -/
def keyLEAscTies (p q : ℚ × String) : Bool :=
  decide (q.1 < p.1 ∨ (p.1 = q.1 ∧ p.2 ≤ q.2))

/-- The active-concept list the claim's wording describes (ascending-id ties). -/
def claimActiveConcepts (g : BrainGraph) : List String :=
  ((((g.nodes.filter (fun n => decide (activationThreshold < n.activation))).map
    (fun n => (n.activation, n.id))).mergeSort keyLEAscTies).map Prod.snd)

/-- `memory.py` `STMEntry`. -/
structure STMEntry where
  turn_number : ℕ
  input_text : String
  active_concepts : List String
  response_text : String
deriving DecidableEq, Repr

/-- `ShortTermMemory.get_recent`: `list(self._buffer)[-n:]`. For `n ≥ 1` the
Python slice is the last `min(n, len)` entries in chronological order; for
`n = 0` the slice `[-0:]` is `[0:]`, the whole buffer. -/
def getRecent (buf : List STMEntry) (n : ℕ) : List STMEntry :=
  if n = 0 then buf else buf.drop (buf.length - n)

/-- `memory.py` `Episode`. Python concept sets become `Finset String`. -/
structure Episode where
  turn : ℕ
  context_concepts : Finset String
  outcome_concepts : Finset String
  reinforcement : ℚ
deriving DecidableEq

/-- Jaccard similarity as `recall_similar` computes it:
`len(intersection) / len(union) if union else 0.0`. -/
def jaccard (q c : Finset String) : ℚ :=
  if q ∪ c = ∅ then 0 else ((q ∩ c).card : ℚ) / ((q ∪ c).card : ℚ)

/-- The `(similarity, episode)` pairs built in storage order. -/
def scoredEpisodes (eps : List Episode) (q : Finset String) : List (ℚ × Episode) :=
  eps.map (fun e => (jaccard q e.context_concepts, e))

/-- The comparator realising `scored.sort(key=lambda t: t[0], reverse=True)`:
a stable sort descending on the similarity component only. -/
def simLE (a b : ℚ × Episode) : Bool := decide (b.1 ≤ a.1)

/-- `EpisodicMemory.recall_similar` over the stored episode list. -/
def recallSimilar (eps : List Episode) (q : Finset String) (k : ℕ) : List Episode :=
  if q = ∅ ∨ eps = [] then []
  else (((scoredEpisodes eps q).mergeSort simLE).take k).map Prod.snd

/-- `memory.py` `EpisodicMemory`: capacity and the stored episodes, oldest
first. -/
structure EpisodicMemory where
  maxEpisodes : ℕ
  episodes : List Episode
deriving DecidableEq

/-- `recall_similar` as a state-passing operation on the memory object: the
method reads `self._episodes`, builds and sorts a local `scored` list and
returns a fresh result list; the memory state it leaves behind is threaded
explicitly. -/
def recallSimilarM (m : EpisodicMemory) (q : Finset String) (k : ℕ) :
    List Episode × EpisodicMemory :=
  if q = ∅ ∨ m.episodes = [] then ([], m)
  else ((((scoredEpisodes m.episodes q).mergeSort simLE).take k).map Prod.snd, m)

/-- The C3 scenario graph: `fear` seeded to 1, `calm` at 0.5, one inhibitory
edge `fear → calm` of weight 0.4. -/
def fearGraph : BrainGraph :=
  { nodes := [⟨"fear", "emotion", "fear", 0, 1⟩, ⟨"calm", "emotion", "calm", 0, 1/2⟩]
    edges := [⟨"fear", "calm", 2/5, "inhibitory"⟩]
    responses := [] }

/-- A graph whose only node has base (and current) activation 2: legal input,
since `base_activation` is an unconstrained float the parser accepts as is. -/
def outOfRangeGraph : BrainGraph :=
  { nodes := [⟨"x", "concept", "x", 2, 2⟩], edges := [], responses := [] }

/-- A small graph with all activations inside `[0, 1]`. -/
def unitGraph : BrainGraph :=
  { nodes := [⟨"u", "concept", "u", 0, 1/2⟩, ⟨"v", "concept", "v", 0, 1⟩]
    edges := [⟨"u", "v", 3/4, "excitatory"⟩]
    responses := [] }

/-- The clamp always lands in `[0, 1]`. -/
theorem clamp01_bounds (x : ℚ) : 0 ≤ clamp01 x ∧ clamp01 x ≤ 1 :=
  ⟨le_max_left 0 _, max_le (by norm_num) (min_le_left 1 x)⟩

/-- One spreading step keeps every activation inside `[0, 1]` when all
activations start there: updated nodes are clamped, others are untouched. -/
theorem spreadStep_preserves (g : BrainGraph) (df mf : ℚ)
    (h : ∀ n ∈ g.nodes, 0 ≤ n.activation ∧ n.activation ≤ 1) :
    ∀ n ∈ (spreadStep g df mf).nodes, 0 ≤ n.activation ∧ n.activation ≤ 1 := by
  intro n hn
  rw [spreadStep] at hn
  simp only [List.mem_map] at hn
  obtain ⟨m, hm, rfl⟩ := hn
  by_cases hu : hasUpdate g m.id = true
  · simp only [hu, if_pos] at *
    exact clamp01_bounds _
  · simp only [hu] at *
    simp only [Bool.false_eq_true, if_false]
    exact h m hm

/-- The fold over any step-index list preserves the `[0, 1]` range. -/
theorem foldl_spread_preserves (decay mf : ℚ) (l : List ℕ) :
    ∀ g : BrainGraph, (∀ n ∈ g.nodes, 0 ≤ n.activation ∧ n.activation ≤ 1) →
    ∀ n ∈ (l.foldl (fun g0 s => spreadStep g0 (decay ^ s) mf) g).nodes,
      0 ≤ n.activation ∧ n.activation ≤ 1 := by
  induction l with
  | nil => intro g h; exact h
  | cons a t ih =>
    intro g h
    exact ih (spreadStep g (decay ^ a) mf) (spreadStep_preserves g (decay ^ a) mf h)

/-- C1: counterexample to the claimed post-step value. After seeding `hello`
to 1 and spreading exactly one step with decay 0.8 (modulators neutral),
`greeting` holds exactly 0.9 — the first step's decay factor is
`0.8 ^ 0 = 1` — which is 0.18 away from the claimed 0.72, far beyond any
floating tolerance. -/
theorem one_step_not_072 :
    (getNode (spreadActivation helloGraph 1 (4/5) (modFactor defaultModulators)) "greeting").map
      Node.activation = some (9/10)
    ∧ (1/100 : ℚ) < |9/10 - 18/25| := by with_unfolding_all decide

/-- C1 (amended): one spreading step with decay 0.8 leaves `greeting` at
exactly 0.9 (step 0 uses decay factor `0.8 ^ 0 = 1`; 0.72 would only appear
at step index 1), and `hello` itself stays at exactly 1.0. -/
theorem one_step_exact_values :
    (getNode (spreadActivation helloGraph 1 (4/5) (modFactor defaultModulators)) "greeting").map
      Node.activation = some (9/10)
    ∧ (getNode (spreadActivation helloGraph 1 (4/5) (modFactor defaultModulators)) "hello").map
      Node.activation = some 1 := by with_unfolding_all decide

/-- C2: counterexample. An excitatory edge with stored weight `-0.5`, source
activation 1, decay factor 1 and neutral modulators produces the delta
`-0.5 < 0`: the excitatory branch uses the signed stored weight, so the sign
of the delta is not determined by the edge type alone. -/
theorem excitatory_negative_weight_cex :
    edgeDelta 1 ⟨"a", "b", -(1/2), "excitatory"⟩ 1 1 = -(1/2)
    ∧ ¬ (0 ≤ edgeDelta 1 ⟨"a", "b", -(1/2), "excitatory"⟩ 1 1) := by
  with_unfolding_all decide

/-- C2 (amended): only the inhibitory branch normalises the weight through
`abs`, so an inhibitory delta is never positive whatever the stored sign,
while an excitatory edge's delta carries the sign of the stored weight: with
positive activation, decay factor and modulator, a negative stored weight
makes the excitatory delta negative. -/
theorem edge_delta_sign_by_type (s t : String) (a w df mf : ℚ)
    (ha : 0 < a) (hdf : 0 < df) (hmf : 0 < mf) :
    (w < 0 → edgeDelta a ⟨s, t, w, "excitatory"⟩ df mf < 0)
    ∧ edgeDelta a ⟨s, t, w, "inhibitory"⟩ df mf ≤ 0 := by
  constructor
  · intro hw
    simp only [edgeDelta, if_pos rfl]
    exact mul_neg_of_neg_of_pos (mul_neg_of_neg_of_pos (mul_neg_of_pos_of_neg ha hw) hdf) hmf
  · simp only [edgeDelta]
    rw [if_neg (by decide)]
    have h1 : 0 ≤ a * |w| * (1/2) :=
      mul_nonneg (mul_nonneg ha.le (abs_nonneg w)) (by norm_num)
    nlinarith

/-- Instance of `edge_delta_sign_by_type` at weight `-0.5`, activation 1,
decay factor 1 and modulator 1. -/
theorem edge_delta_sign_witness :
    ((-(1/2) : ℚ) < 0 → edgeDelta 1 ⟨"a", "b", -(1/2), "excitatory"⟩ 1 1 < 0)
    ∧ edgeDelta 1 ⟨"a", "b", -(1/2), "inhibitory"⟩ 1 1 ≤ 0 :=
  edge_delta_sign_by_type "a" "b" 1 (-(1/2)) 1 1 (by norm_num) (by norm_num) (by norm_num)

/-- C3: an inhibitory edge's delta is `-(activation * |weight| * 0.5)` scaled
only by the modulator multiplier — the same for every decay factor, hence for
every decay parameter and step index — and in the `fear → calm` scenario
(weight 0.4, source seeded to 1.0, neutral modulators) the delta accumulated
into `calm` is exactly `-0.2` at a step with any decay factor. -/
theorem inhibitory_delta_decay_free (s t : String) (a w df df' mf : ℚ) :
    edgeDelta a ⟨s, t, w, "inhibitory"⟩ df mf = -(a * |w| * (1/2)) * mf
    ∧ edgeDelta a ⟨s, t, w, "inhibitory"⟩ df mf = edgeDelta a ⟨s, t, w, "inhibitory"⟩ df' mf
    ∧ ∀ dfx : ℚ, stepDelta fearGraph dfx (modFactor defaultModulators) "calm" = -(1/5) := by
  refine ⟨by simp [edgeDelta], by simp [edgeDelta], ?_⟩
  intro dfx
  have hf : firesInto fearGraph "calm" =
      [(⟨"fear", "emotion", "fear", 0, 1⟩, ⟨"fear", "calm", 2/5, "inhibitory"⟩)] := by
    with_unfolding_all decide
  have hm : modFactor defaultModulators = 1 := by with_unfolding_all decide
  rw [stepDelta, hf, hm]
  simp [edgeDelta]
  rw [abs_of_nonneg (by norm_num : (0:ℚ) ≤ 2/5)]
  norm_num

/-- C4: counterexample to the unconditional range claim. A node whose base
activation is 2 (the parser puts no bound on `base_activation`) receives no
delta — the update map never mentions it — so it is never clamped: after
seeding nothing, priming nothing and spreading one step its activation is
still 2, outside `[0, 1]`. -/
theorem unclamped_base_cex :
    (getNode (spreadActivation (applyPriming (injectActivation outOfRangeGraph []) [])
        1 (4/5) (modFactor defaultModulators)) "x").map Node.activation = some 2
    ∧ ¬ ((2 : ℚ) ≤ 1) := by with_unfolding_all decide

/-- C4 (amended): provided every node's activation lies in `[0, 1]` when
spreading starts, every node's activation stays in `[0, 1]` after every
spreading step — each applied delta is clamped and untouched nodes already
satisfy the range — for any graph, step count, decay and modulator factor. -/
theorem spread_preserves_unit_interval (g : BrainGraph) (steps : ℕ) (decay mf : ℚ)
    (h : ∀ n ∈ g.nodes, 0 ≤ n.activation ∧ n.activation ≤ 1) :
    ∀ n ∈ (spreadActivation g steps decay mf).nodes,
      0 ≤ n.activation ∧ n.activation ≤ 1 :=
  foldl_spread_preserves decay mf (List.range steps) g h

/-- Instance of `spread_preserves_unit_interval` on a concrete graph run for
three steps. -/
theorem spread_unit_interval_witness :
    ((spreadActivation unitGraph 3 (4/5) 1).nodes.all
      (fun n => decide (0 ≤ n.activation ∧ n.activation ≤ 1))) = true := by
  have h := spread_preserves_unit_interval unitGraph 3 (4/5) 1 (by with_unfolding_all decide)
  exact List.all_eq_true.mpr (fun n hn => decide_eq_true (h n hn))

/-- Splitting the scan of a concatenation at the junction. -/
theorem scanBestAux_append (l₁ l₂ : List ℚ) :
    ∀ (i : ℕ) (best : Option ℕ) (bs : ℚ),
    scanBestAux (l₁ ++ l₂) i best bs =
      scanBestAux l₂ (i + l₁.length) (scanBestAux l₁ i best bs).1 (scanBestAux l₁ i best bs).2 := by
  induction l₁ with
  | nil => intro i best bs; simp [scanBestAux]
  | cons s t ih =>
    intro i best bs
    have harith : i + 1 + t.length = i + (t.length + 1) := by omega
    simp only [List.cons_append, scanBestAux, List.length_cons, List.append_eq]
    by_cases h : bs < s
    · rw [if_pos h, if_pos h, ih, harith]
    · rw [if_neg h, if_neg h, ih, harith]

/-- The running best score never decreases. -/
theorem le_scanBestAux_snd (l : List ℚ) :
    ∀ (i : ℕ) (best : Option ℕ) (bs : ℚ), bs ≤ (scanBestAux l i best bs).2 := by
  induction l with
  | nil => intro i best bs; exact le_refl bs
  | cons s t ih =>
    intro i best bs
    simp only [scanBestAux]
    by_cases h : bs < s
    · rw [if_pos h]; exact (le_of_lt h).trans (ih (i + 1) (some i) s)
    · rw [if_neg h]; exact ih (i + 1) best bs

/-- Every scanned score is at most the final best score. -/
theorem elem_le_scanBestAux_snd (l : List ℚ) :
    ∀ (i : ℕ) (best : Option ℕ) (bs s : ℚ), s ∈ l → s ≤ (scanBestAux l i best bs).2 := by
  induction l with
  | nil => intro _ _ _ s hs; cases hs
  | cons a t ih =>
    intro i best bs s hs
    simp only [scanBestAux]
    rcases List.mem_cons.mp hs with rfl | hmem
    · by_cases h : bs < s
      · rw [if_pos h]; exact le_scanBestAux_snd t (i + 1) (some i) s
      · rw [if_neg h]; exact (le_of_not_lt h).trans (le_scanBestAux_snd t (i + 1) best bs)
    · by_cases h : bs < a
      · rw [if_pos h]; exact ih (i + 1) (some i) a s hmem
      · rw [if_neg h]; exact ih (i + 1) best bs s hmem

/-- The scan either leaves its accumulator untouched or returns the position
and value of one of the scanned scores. -/
theorem scanBestAux_shape (l : List ℚ) :
    ∀ (i : ℕ) (best : Option ℕ) (bs : ℚ),
    scanBestAux l i best bs = (best, bs)
    ∨ ∃ j, ∃ h : j < l.length, scanBestAux l i best bs = (some (i + j), l.get ⟨j, h⟩) := by
  induction l with
  | nil => intro i best bs; left; rfl
  | cons a t ih =>
    intro i best bs
    simp only [scanBestAux]
    by_cases h : bs < a
    · rw [if_pos h]
      rcases ih (i + 1) (some i) a with heq | ⟨j, hj, heq⟩
      · right
        exact ⟨0, by simp, by simpa using heq⟩
      · right
        refine ⟨j + 1, by simpa using Nat.succ_lt_succ hj, ?_⟩
        rw [heq]
        have : i + (j + 1) = i + 1 + j := by omega
        simp [this]
    · rw [if_neg h]
      rcases ih (i + 1) best bs with heq | ⟨j, hj, heq⟩
      · left; exact heq
      · right
        refine ⟨j + 1, by simpa using Nat.succ_lt_succ hj, ?_⟩
        rw [heq]
        have : i + (j + 1) = i + 1 + j := by omega
        simp [this]



/-- C5: rules are scored as trigger-activation sums plus `priority * 0.01`
(built into `scoreRule`), scanned in insertion order with replacement only on
strict improvement (built into `scanBestAux`); consequently, when an earlier
rule's computed score exactly equals a later rule's, the scan never settles on
the later index, so the earliest-inserted rule among exact ties is the one
returned. -/
theorem select_response_tie (g : BrainGraph) (i j : ℕ) (hij : i < j)
    (hj : j < g.responses.length)
    (heq : scoreRule g (g.responses.get ⟨i, Nat.lt_trans hij hj⟩)
         = scoreRule g (g.responses.get ⟨j, hj⟩)) :
    (scanBest (g.responses.map (scoreRule g))).1 ≠ some j := by
  intro habs
  have hgets0 : (g.responses.map (scoreRule g)).get ⟨i, by simpa using Nat.lt_trans hij hj⟩
      = (g.responses.map (scoreRule g)).get ⟨j, by simpa using hj⟩ := by
    simp only [List.get_eq_getElem, List.getElem_map]
    simpa [List.get_eq_getElem] using heq
  set ss := g.responses.map (scoreRule g) with hss
  have hlen : ss.length = g.responses.length := by simp [hss]
  have hjs : j < ss.length := by omega
  have his : i < ss.length := by omega
  have hgets : ss.get ⟨i, his⟩ = ss.get ⟨j, hjs⟩ := hgets0
  -- split the scores at position j
  have hsplit : ss = ss.take j ++ ss.drop j := (List.take_append_drop j ss).symm
  have htlen : (ss.take j).length = j := by
    simp [List.length_take]
    omega
  have hcons : ss.drop j = ss.get ⟨j, hjs⟩ :: ss.drop (j + 1) := by
    rw [List.drop_eq_getElem_cons hjs]
    simp [List.get_eq_getElem]
  have hrun : scanBest ss =
      scanBestAux (ss.drop j) j (scanBestAux (ss.take j) 0 none (-1)).1
        (scanBestAux (ss.take j) 0 none (-1)).2 := by
    conv_lhs => rw [scanBest, hsplit]
    rw [scanBestAux_append]
    rw [htlen]
    simp
  set p := scanBestAux (ss.take j) 0 none (-1) with hp
  -- the tied earlier score is already reflected in p.2
  have hmem : ss.get ⟨i, his⟩ ∈ ss.take j := by
    have : (ss.take j).get ⟨i, by omega⟩ = ss.get ⟨i, his⟩ := by
      simp [List.get_eq_getElem, List.getElem_take]
    rw [← this]
    exact List.get_mem _ _ _
  have hle : ss.get ⟨j, hjs⟩ ≤ p.2 := by
    rw [← hgets]
    exact elem_le_scanBestAux_snd (ss.take j) 0 none (-1) _ hmem
  -- the scan at position j cannot pick j
  rw [hrun, hcons] at habs
  simp only [scanBestAux] at habs
  rw [if_neg (not_lt.mpr hle)] at habs
  rcases scanBestAux_shape (ss.drop (j + 1)) (j + 1) p.1 p.2 with heq2 | ⟨k, hk, heq2⟩
  · rw [heq2] at habs
    -- then p.1 = some j, impossible: indices produced for the prefix are < j
    rcases scanBestAux_shape (ss.take j) 0 none (-1) with heq3 | ⟨m, hm, heq3⟩
    · rw [← hp] at heq3
      rw [heq3] at habs
      exact Option.noConfusion habs
    · rw [← hp] at heq3
      rw [heq3] at habs
      have : m = j := by
        have := Option.some.inj habs
        omega
      omega
  · rw [heq2] at habs
    have := Option.some.inj habs
    omega



/-- C6: the fixed fallback rule (no triggers, intent "unknown", priority 0)
is returned exactly when no rule's computed score reaches the 0.05 activation
threshold (vacuously, also when no rules exist); otherwise the returned rule
is a stored rule of maximal score. The chosen rule's intent is recorded on
the trace in both cases. -/
theorem select_response_fallback (g : BrainGraph) :
    (selectResponse g = fallbackRule ↔ ∀ r ∈ g.responses, scoreRule g r < activationThreshold)
    ∧ ((∃ r ∈ g.responses, activationThreshold ≤ scoreRule g r) →
        selectResponse g ∈ g.responses
        ∧ ∀ r ∈ g.responses, scoreRule g r ≤ scoreRule g (selectResponse g))
    ∧ ∀ t : ThoughtTrace,
        (selectResponseTrace g t).2.response_intent = (selectResponseTrace g t).1.intent := by
  have hfall : scoreRule g fallbackRule = 0 := by simp [scoreRule, fallbackRule]
  have hsel : selectResponse g =
      (match (scanBest (g.responses.map (scoreRule g))).1 with
       | none => fallbackRule
       | some i =>
         if (scanBest (g.responses.map (scoreRule g))).2 < activationThreshold then fallbackRule
         else g.responses.getD i fallbackRule) := rfl
  rcases scanBestAux_shape (g.responses.map (scoreRule g)) 0 none (-1) with hsh | ⟨k, hk, hsh⟩
  · -- the scan never picked a rule: every score is at most -1
    have hscan : scanBest (g.responses.map (scoreRule g)) = (none, -1) := hsh
    have hall : ∀ r ∈ g.responses, scoreRule g r < activationThreshold := by
      intro r hr
      have h1 : scoreRule g r ≤ (scanBest (g.responses.map (scoreRule g))).2 :=
        elem_le_scanBestAux_snd _ 0 none (-1) _ (List.mem_map_of_mem _ hr)
      rw [hscan] at h1
      simp only at h1
      have : (-1 : ℚ) < activationThreshold := by norm_num [activationThreshold]
      linarith
    have hself : selectResponse g = fallbackRule := by rw [hsel, hscan]
    refine ⟨⟨fun _ => hall, fun _ => hself⟩, ?_, fun t => rfl⟩
    rintro ⟨r, hr, hge⟩
    have := hall r hr
    exact absurd hge (not_le.mpr this)
  · -- the scan picked index k holding the maximal score
    have hklen : k < g.responses.length := by simpa using hk
    have hsh' : scanBest (g.responses.map (scoreRule g))
        = (some k, scoreRule g (g.responses.get ⟨k, hklen⟩)) := by
      rw [scanBest, hsh]
      simp [List.get_eq_getElem, List.getElem_map]
    have hmax : ∀ r ∈ g.responses, scoreRule g r ≤ scoreRule g (g.responses.get ⟨k, hklen⟩) := by
      intro r hr
      have h1 : scoreRule g r ≤ (scanBest (g.responses.map (scoreRule g))).2 :=
        elem_le_scanBestAux_snd _ 0 none (-1) _ (List.mem_map_of_mem _ hr)
      rw [hsh'] at h1
      exact h1
    by_cases hbig : scoreRule g (g.responses.get ⟨k, hklen⟩) < activationThreshold
    · -- below threshold: fallback, and indeed every score is below threshold
      have hall : ∀ r ∈ g.responses, scoreRule g r < activationThreshold := by
        intro r hr
        exact lt_of_le_of_lt (hmax r hr) hbig
      have hself : selectResponse g = fallbackRule := by
        rw [hsel, hsh']
        show (if scoreRule g (g.responses.get ⟨k, hklen⟩) < activationThreshold
          then fallbackRule else g.responses.getD k fallbackRule) = fallbackRule
        rw [if_pos hbig]
      refine ⟨⟨fun _ => hall, fun _ => hself⟩, ?_, fun t => rfl⟩
      rintro ⟨r, hr, hge⟩
      exact absurd hge (not_le.mpr (hall r hr))
    · -- at or above threshold: the k-th rule is returned
      have hself : selectResponse g = g.responses.get ⟨k, hklen⟩ := by
        rw [hsel, hsh']
        show (if scoreRule g (g.responses.get ⟨k, hklen⟩) < activationThreshold
          then fallbackRule else g.responses.getD k fallbackRule) = g.responses.get ⟨k, hklen⟩
        rw [if_neg hbig]
        rw [List.getD_eq_getElem _ _ hklen]
        simp [List.get_eq_getElem]
      have hkmem : g.responses.get ⟨k, hklen⟩ ∈ g.responses := List.get_mem _ _ _
      refine ⟨⟨?_, ?_⟩, fun _ => ⟨by rw [hself]; exact hkmem, by rw [hself]; exact hmax⟩,
        fun t => rfl⟩
      · intro hEqFall
        exfalso
        rw [hself] at hEqFall
        have h0 : scoreRule g (g.responses.get ⟨k, hklen⟩) = 0 := by rw [hEqFall, hfall]
        rw [h0] at hbig
        exact hbig (by norm_num [activationThreshold])
      · intro hall
        exact absurd (hall _ hkmem) hbig

/-- Two rules with identical computed scores (no triggers, equal priority). -/
def tieGraph : BrainGraph :=
  { nodes := [], edges := [],
    responses := [⟨"r1", [], "first", 1⟩, ⟨"r2", [], "second", 1⟩] }

/-- Instance of `select_response_tie` on two exactly tied concrete rules. -/
theorem select_response_tie_witness :
    (scanBest (tieGraph.responses.map (scoreRule tieGraph))).1 ≠ some 1 :=
  select_response_tie tieGraph 0 1 (by norm_num) (by with_unfolding_all decide)
    (by with_unfolding_all decide)

/-- The tuple comparator of `plan_response` is transitive. -/
theorem keyLE_trans : ∀ a b c : ℚ × String, keyLE a b → keyLE b c → keyLE a c := by
  intro a b c hab hbc
  simp only [keyLE, decide_eq_true_eq] at *
  rcases hab with h1 | ⟨h1, h1s⟩ <;> rcases hbc with h2 | ⟨h2, h2s⟩
  · left; exact h2.trans h1
  · left; exact h2 ▸ h1
  · left; exact h1 ▸ h2
  · right; exact ⟨h1.trans h2, h2s.trans h1s⟩

/-- The tuple comparator of `plan_response` is total. -/
theorem keyLE_total : ∀ a b : ℚ × String, keyLE a b || keyLE b a := by
  intro a b
  simp only [keyLE, Bool.or_eq_true, decide_eq_true_eq]
  rcases lt_trichotomy a.1 b.1 with h | h | h
  · right; left; exact h
  · rcases le_total a.2 b.2 with hs | hs
    · right; right; exact ⟨h.symm, hs⟩
    · left; right; exact ⟨h, hs⟩
  · left; left; exact h

/-- C7 (amended): the list handed to the realizer contains exactly the ids of
the nodes whose activation strictly exceeds the 0.05 threshold, ordered by
descending activation with ties among equal activations broken by descending
concept id — `sort(reverse=True)` reverses the id order inside ties too. -/
theorem active_concepts_spec (g : BrainGraph) :
    (∀ c, c ∈ activeConcepts g ↔ ∃ n ∈ g.nodes, activationThreshold < n.activation ∧ c = n.id)
    ∧ (sortedActive g).Pairwise (fun p q => q.1 < p.1 ∨ (p.1 = q.1 ∧ q.2 ≤ p.2)) := by
  constructor
  · intro c
    simp only [activeConcepts, sortedActive, List.mem_map, List.mem_mergeSort,
      List.mem_filter, decide_eq_true_eq]
    constructor
    · rintro ⟨p, ⟨n, ⟨hn, hact⟩, rfl⟩, rfl⟩
      exact ⟨n, hn, hact, rfl⟩
    · rintro ⟨n, hn, hact, rfl⟩
      exact ⟨(n.activation, n.id), ⟨n, ⟨hn, hact⟩, rfl⟩, rfl⟩
  · have h := List.sorted_mergeSort keyLE_trans keyLE_total
      ((g.nodes.filter (fun n => decide (activationThreshold < n.activation))).map
        (fun n => (n.activation, n.id)))
    exact h.imp (fun hab => by simpa [keyLE, decide_eq_true_eq] using hab)

/-- Two nodes with exactly equal activation 1. -/
def tieNodesGraph : BrainGraph :=
  { nodes := [⟨"a", "concept", "a", 0, 1⟩, ⟨"b", "concept", "b", 0, 1⟩]
    edges := [], responses := [] }

/-- C7: counterexample to the tie order of the claim. With `a` and `b` both at
activation 1, the code's `sort(reverse=True)` yields `["b", "a"]`, while
breaking the tie by (ascending) concept id, as the claim reads, would yield
`["a", "b"]`. -/
theorem active_ties_descend_cex :
    activeConcepts tieNodesGraph = ["b", "a"]
    ∧ claimActiveConcepts tieNodesGraph = ["a", "b"]
    ∧ activeConcepts tieNodesGraph ≠ claimActiveConcepts tieNodesGraph := by
  with_unfolding_all decide

/-- The similarity comparator of `recall_similar` is transitive. -/
theorem simLE_trans : ∀ a b c : ℚ × Episode, simLE a b → simLE b c → simLE a c := by
  intro a b c h1 h2
  simp only [simLE, decide_eq_true_eq] at *
  exact h2.trans h1

/-- The similarity comparator of `recall_similar` is total. -/
theorem simLE_total : ∀ a b : ℚ × Episode, simLE a b || simLE b a := by
  intro a b
  simp only [simLE, Bool.or_eq_true, decide_eq_true_eq]
  exact le_total b.1 a.1

/-- Two positions of a list, in order, form a sublist. -/
theorem sublist_pair_of_lt {α : Type} :
    ∀ (l : List α) (i j : ℕ) (hij : i < j) (hj : j < l.length),
    List.Sublist [l.get ⟨i, Nat.lt_trans hij hj⟩, l.get ⟨j, hj⟩] l := by
  intro l
  induction l with
  | nil => intro i j hij hj; simp at hj
  | cons x t ih =>
    intro i j hij hj
    cases i with
    | zero =>
      cases j with
      | zero => omega
      | succ jm =>
        apply List.Sublist.cons₂
        exact List.singleton_sublist.mpr (List.get_mem _ _ _)
    | succ im =>
      cases j with
      | zero => omega
      | succ jm =>
        apply List.Sublist.cons
        exact ih im jm (by omega) (by simpa using hj)

/-- An episode with context `{a, b}` (stored second in the C8 scenario). -/
def epAB : Episode := ⟨2, {"a", "b"}, ∅, 0⟩

/-- An episode with context `{a, b, c}` (stored first in the C8 scenario). -/
def epABC : Episode := ⟨1, {"a", "b", "c"}, ∅, 0⟩

/-- C8: `recall_similar` returns the empty list when the query or the store is
empty (and Jaccard of an empty union is 0); it returns at most `top_k`
episodes; the scored list is sorted by descending Jaccard similarity; episodes
with exactly equal similarity keep their storage order (the stable sort keeps
any in-order pair of equal-similarity entries in order); and in the concrete
scenario the `{a, b}` episode (similarity 1) ranks above the `{a, b, c}`
episode (similarity 2/3) even though it was stored later. -/
theorem recall_similar_spec (eps : List Episode) (q : Finset String) (k : ℕ) :
    (recallSimilar eps ∅ k = [] ∧ recallSimilar [] q k = [] ∧ jaccard ∅ ∅ = 0)
    ∧ (recallSimilar eps q k).length ≤ k
    ∧ ((scoredEpisodes eps q).mergeSort simLE).Pairwise (fun a b => b.1 ≤ a.1)
    ∧ (∀ i j (hij : i < j) (hj : j < eps.length),
        jaccard q (eps.get ⟨i, Nat.lt_trans hij hj⟩).context_concepts
          = jaccard q (eps.get ⟨j, hj⟩).context_concepts →
        List.Sublist
          [(jaccard q (eps.get ⟨i, Nat.lt_trans hij hj⟩).context_concepts,
              eps.get ⟨i, Nat.lt_trans hij hj⟩),
           (jaccard q (eps.get ⟨j, hj⟩).context_concepts, eps.get ⟨j, hj⟩)]
          ((scoredEpisodes eps q).mergeSort simLE))
    ∧ recallSimilar [epABC, epAB] {"a", "b"} 3 = [epAB, epABC]
    ∧ jaccard {"a", "b"} epAB.context_concepts = 1
    ∧ jaccard {"a", "b"} epABC.context_concepts = 2/3 := by
  refine ⟨⟨by simp [recallSimilar], by simp [recallSimilar], by simp [jaccard]⟩, ?_, ?_, ?_, ?_⟩
  · rw [recallSimilar]
    split
    · simp
    · simp only [List.length_map, List.length_take]
      exact min_le_left _ _
  · have h := List.sorted_mergeSort simLE_trans simLE_total (scoredEpisodes eps q)
    exact h.imp (fun hab => by simpa [simLE, decide_eq_true_eq] using hab)
  · intro i j hij hj heq
    have hsub := sublist_pair_of_lt eps i j hij hj
    have hmap := hsub.map (fun e => (jaccard q e.context_concepts, e))
    apply List.pair_sublist_mergeSort simLE_trans simLE_total
    · have heq2 : jaccard q (eps.get ⟨i, Nat.lt_trans hij hj⟩).context_concepts
          = jaccard q (eps.get ⟨j, hj⟩).context_concepts := heq
      simp only [List.get_eq_getElem] at heq2
      simp [simLE, heq2]
    · simpa [scoredEpisodes] using hmap
  · exact ⟨by with_unfolding_all decide, by with_unfolding_all decide,
      by with_unfolding_all decide⟩



/-- A single buffered turn. -/
def stmEntry1 : STMEntry := ⟨1, "hi", ["c_hi"], "hello"⟩

/-- C9: the failing input. With one buffered entry, `get_recent(0)` evaluates
`items[-0:]`, the whole buffer, so it returns the entry instead of the empty
list the docstring and the claim describe. -/
theorem get_recent_zero_bug :
    getRecent [stmEntry1] 0 = [stmEntry1] ∧ getRecent [stmEntry1] 0 ≠ [] := by
  decide

/-- For every `n ≥ 1`, `get_recent` does return the `min(n, len)` most recent
entries in chronological order: the divergence of C9 is only at `n = 0`. -/
theorem get_recent_window (buf : List STMEntry) (n : ℕ) (hn : 1 ≤ n) :
    getRecent buf n = buf.drop (buf.length - n)
    ∧ (getRecent buf n).length = min n buf.length := by
  rw [getRecent, if_neg (by omega)]
  refine ⟨rfl, ?_⟩
  simp [List.length_drop]
  omega

/-- C10: `recall_similar` is a pure query: the memory state it leaves behind is
exactly the state it was given — same episode list, same order, same fields —
and its result is the pure function of the stored episodes. -/
theorem recall_similar_is_pure (m : EpisodicMemory) (q : Finset String) (k : ℕ) :
    (recallSimilarM m q k).2 = m ∧ (recallSimilarM m q k).1 = recallSimilar m.episodes q k := by
  by_cases h : q = ∅ ∨ m.episodes = []
  · simp [recallSimilarM, recallSimilar, h]
  · simp [recallSimilarM, recallSimilar, h]

end NCE
